import Mathlib

/-!
Verification of the tsargparse command-line argument parser (`src/index.ts`).

The development shallowly embeds the parser's data model and algorithms:

* the declared schema (`ArgDef`, keyed by declaration-ordered association
  lists, mirroring a JS object's insertion-ordered string keys);
* schema normalization (`getOptionDefs`, `getPositionalArgDefs`,
  `camelCaseToKebabCase`);
* the token-scanning state machine (`parseLoop`, with `handleLong` for
  `--name` / `--name=value` tokens and `shortLoop` for `-abc` groups);
* post-processing (`postLoop`: boolean materialization and required checks);
* the usage-table renderer's width logic (`stripAnsi`, `visibleLen`,
  `padStartVisible`, `padEndVisible`, `colWidths`, `outputTable`).

JS-specific behaviours are modelled explicitly: falsy checks on strings
(`truthyStr`), falsy checks on option values (`vTruthy`), properties that may
be `undefined` or `false` (`LongField`), and object property assignment on the
result map (`setVal`: update in place, else append).
-/

namespace TsArg

/-- Runtime values stored in the result map.  JS numbers are modelled as `Int`
(no claim depends on numeric parsing). -/
inductive Value where
  | str (s : String)
  | num (n : Int)
  | bool (b : Bool)
deriving DecidableEq, Repr

/-- JS truthiness of a `Value` (used by `!!argValues[key]`). -/
def vTruthy : Value → Bool
  | .str s => s != ""
  | .num n => n != 0
  | .bool b => b

/-- JS truthiness of a possibly-missing value (`undefined` is falsy). -/
def truthyOpt : Option Value → Bool
  | none => false
  | some v => vTruthy v

/-- JS truthiness of a possibly-missing string (`undefined` and `""` falsy);
models `if (optionValueAfterEquals)`. -/
def truthyStrOpt : Option String → Bool
  | none => false
  | some s => s != ""

/-- The `type` field of a declared spec: `"string" | "number" | "boolean"`,
or `"custom"` with a user-supplied parse function (`parse` in the source). -/
inductive ArgTypeSpec where
  | string
  | number
  | boolean
  | custom (p : String → Except String Value)

/-- `argDef.type === "boolean"` (the source guards with `"type" in argDef`,
which always holds here since `custom` also carries its tag). -/
def isBooleanType : ArgTypeSpec → Bool
  | .boolean => true
  | _ => false

/-- The declared `long` property: absent, the literal `false`, or a string. -/
inductive LongField where
  | undef
  | fls
  | str (s : String)

/-- One declared argument spec (the flattened runtime shape of the source's
`ArgDef` union: `positional`, `long`, `short`, `required`, `default`, `type`).
`default := none` models the `default` property being absent. -/
structure ArgDef where
  positional : Bool := false
  long : LongField := .undef
  short : Option String := none
  required : Bool := false
  default : Option Value := none
  type : ArgTypeSpec

/-- A schema: the `argDefs` object, as an insertion-ordered association list
with (by construction in JS) unique keys. -/
abbrev Schema := List (String × ArgDef)

/-- `camelCaseToKebabCase`: keep the first character, then replace each
ASCII upper-case letter `C` by `-c`.  (JS `/[A-Z]/` and `toLowerCase` are
ASCII on this range, matching `Char.isUpper`/`Char.toLower`.) -/
def kebabChar (c : Char) : List Char :=
  if c.isUpper then ['-', c.toLower] else [c]

def camelCaseToKebabCase (s : String) : String :=
  match s.data with
  | [] => ""
  | c :: rest => ⟨c :: rest.flatMap kebabChar⟩

/-- JS `toUpperCase` (ASCII range, as used on kebab-cased keys). -/
def toUpperStr (s : String) : String :=
  ⟨s.data.map Char.toUpper⟩

/-- `argDef.long || camelCaseToKebabCase(key)`: a falsy `long` (absent,
`false`, or `""`) falls back to the name derived from the key. -/
def resolveLong (l : LongField) (key : String) : String :=
  match l with
  | .str s => if s == "" then camelCaseToKebabCase key else s
  | _ => camelCaseToKebabCase key

/-- A normalized option spec (`OptionDefWithKey`): the spread of the declared
def plus `key` and the resolved `long`. -/
structure OptionDefWithKey where
  key : String
  long : String
  short : Option String := none
  required : Bool := false
  default : Option Value := none
  type : ArgTypeSpec

/-- A normalized positional spec (`BaseArgDefWithKey`). -/
structure PosDefWithKey where
  key : String
  required : Bool := false
  default : Option Value := none
  type : ArgTypeSpec

/-- `getOptionDefs`: non-positional entries, in declaration order, with the
resolved long name. -/
def getOptionDefs (defs : Schema) : List OptionDefWithKey :=
  (defs.filter (fun kd => !kd.2.positional)).map (fun kd =>
    { key := kd.1
      long := resolveLong kd.2.long kd.1
      short := kd.2.short
      required := kd.2.required
      default := kd.2.default
      type := kd.2.type })

/-- `getPositionalArgDefs`: positional entries, in declaration order. -/
def getPositionalArgDefs (defs : Schema) : List PosDefWithKey :=
  (defs.filter (fun kd => kd.2.positional)).map (fun kd =>
    { key := kd.1
      required := kd.2.required
      default := kd.2.default
      type := kd.2.type })

/-- JS property lookup `argValues[key]` on the result map. -/
def getVal : List (String × Value) → String → Option Value
  | [], _ => none
  | (k, v) :: rest, key => if k == key then some v else getVal rest key

/-- JS property assignment `argValues[key] = v`: update in place if the key
exists, otherwise append. -/
def setVal : List (String × Value) → String → Value → List (String × Value)
  | [], key, v => [(key, v)]
  | (k, w) :: rest, key, v =>
    if k == key then (k, v) :: rest else (k, w) :: setVal rest key v

/-- `str.startsWith(p)`. -/
def startsWithPfx (p s : String) : Bool :=
  p.data.isPrefixOf s.data

/-- The outcome of `parseArgValue`: a parse result, or a thrown exception
(the source `throw`s on a boolean value parse). -/
inductive ValOut where
  | ok (v : Value)
  | error (e : String)
  | bug (m : String)

/-- Modelled from the spec: the host language's numeric coercion
(`Number(argStr)` with an `isNaN` check) is an external collaborator whose
exact semantics are out of scope; no claim depends on it. -/
def jsNumber (s : String) : Option Int :=
  s.toInt?

/-- `parseArgValue`: custom parse first (`"parse" in argDef`), then builtins;
a boolean value parse is an internal bug (`throw`). -/
def parseArgValue (t : ArgTypeSpec) (argStr : String) : ValOut :=
  match t with
  | .custom p =>
    match p argStr with
    | .ok v => .ok v
    | .error e => .error e
  | .string => .ok (.str argStr)
  | .number =>
    match jsNumber argStr with
    | some n => .ok (.num n)
    | none => .error "Invalid number"
  | .boolean => .bug "bug: should not be parsing a value for a boolean option"

/-- Overall outcome of a parse (or of the scan loop): success with the result
map, a returned `{ error }`, or a thrown exception. -/
inductive ParseOutcome where
  | ok (m : List (String × Value))
  | error (e : String)
  | bug (m : String)
deriving DecidableEq, Repr

/-- Outcome of handling one flag token: either stop the whole parse, or
continue with updated values, having consumed `n` extra tokens beyond the
flag token itself. -/
inductive StepOut where
  | cont (vals : List (String × Value)) (n : Nat)
  | stop (o : ParseOutcome)
deriving DecidableEq, Repr

/-- Split a `--…` token: the candidate long name is everything after `--` and
before the first `=`; the inline value is everything after that `=` (absent if
there is no `=`).  Mirrors `arg.slice(2).split("=", 1)[0]` and
`arg.slice(arg.indexOf("=") + 1)`. -/
def breakOnEq : List Char → List Char × Option (List Char)
  | [] => ([], none)
  | c :: rest =>
    if c = '=' then ([], some rest)
    else
      let (pre, post) := breakOnEq rest
      (c :: pre, post)

def splitLongArg (arg : String) : String × Option String :=
  let t := arg.data.drop 2
  let (pre, post) := breakOnEq t
  (⟨pre⟩, post.map (fun l => ⟨l⟩))

/-- Look up the first option spec whose resolved long name is truthy and
equals the candidate (`def.long && def.long === longOptionHyphenated`). -/
def findLong (optDefs : List OptionDefWithKey) (name : String) :
    Option OptionDefWithKey :=
  optDefs.find? (fun d => d.long != "" && d.long == name)

/-- Handle a long-option token with candidate name `name` and inline value
`inl`, given the tokens `rest` that follow it (lines 224–281 of the source). -/
def handleLong (optDefs : List OptionDefWithKey) (name : String)
    (inl : Option String) (vals : List (String × Value))
    (rest : List String) : StepOut :=
  match findLong optDefs name with
  | none => .stop (.error ("Unrecognized option --" ++ name))
  | some d =>
    if isBooleanType d.type then
      if truthyStrOpt inl then
        .stop (.error ("Unexpect value provided for boolean option --" ++ name))
      else
        .cont (setVal vals d.key (.bool true)) 0
    else
      match inl with
      | some v =>
        match parseArgValue d.type v with
        | .ok value => .cont (setVal vals d.key value) 0
        | .error e =>
          .stop (.error ("Failed to parse value for option --" ++ name ++ ": " ++ e))
        | .bug m => .stop (.bug m)
      | none =>
        match rest with
        | [] => .stop (.error ("Missing value for option --" ++ name))
        | next :: _ =>
          if next == "" || startsWithPfx "-" next then
            .stop (.error ("Missing value for option --" ++ name))
          else
            match parseArgValue d.type next with
            | .ok value => .cont (setVal vals d.key value) 1
            | .error e =>
              .stop (.error ("Failed to parse value for option --" ++ name ++ ": " ++ e))
            | .bug m => .stop (.bug m)

/-- Handle a combined short-option group (the characters after `-`), given the
following tokens; each non-boolean character consumes one further whole token
(lines 283–315 of the source).  `!nextArg` is true for a missing or empty
next token. -/
def shortLoop (optDefs : List OptionDefWithKey) :
    List Char → List (String × Value) → List String → StepOut
  | [], vals, _ => .cont vals 0
  | c :: cs, vals, toks =>
    match optDefs.find? (fun d => d.short == some (String.singleton c)) with
    | none => .stop (.error ("Unrecognized option -" ++ String.singleton c))
    | some d =>
      if isBooleanType d.type then
        shortLoop optDefs cs (setVal vals d.key (.bool true)) toks
      else
        match toks with
        | [] => .stop (.error ("Missing value for option -" ++ String.singleton c))
        | next :: toks' =>
          if next == "" || startsWithPfx "-" next then
            .stop (.error ("Missing value for option -" ++ String.singleton c))
          else
            match parseArgValue d.type next with
            | .ok v =>
              match shortLoop optDefs cs (setVal vals d.key v) toks' with
              | .cont vals' n => .cont vals' (n + 1)
              | .stop o => .stop o
            | .error e =>
              .stop (.error ("Failed to parse value for option -" ++
                String.singleton c ++ ": " ++ e))
            | .bug m => .stop (.bug m)

/-- Outcome of classifying and handling one scanned token: stop the parse, or
continue with updated positional specs and values, `n` extra tokens consumed. -/
inductive ScanStep where
  | stop (o : ParseOutcome)
  | cont (remPos : List PosDefWithKey) (vals : List (String × Value)) (n : Nat)

/-- The body of one iteration of the scan loop (lines 221–333): classify the
token `arg` (long option, short group, positional) and handle it, given the
following tokens `rest`. -/
def scanStep (optDefs : List OptionDefWithKey) (remPos : List PosDefWithKey)
    (vals : List (String × Value)) (arg : String) (rest : List String) :
    ScanStep :=
  if startsWithPfx "--" arg then
    let (name, inl) := splitLongArg arg
    match handleLong optDefs name inl vals rest with
    | .stop o => .stop o
    | .cont vals' n => .cont remPos vals' n
  else if startsWithPfx "-" arg then
    match shortLoop optDefs (arg.data.drop 1) vals rest with
    | .stop o => .stop o
    | .cont vals' n => .cont remPos vals' n
  else
    match remPos with
    | [] => .stop (.error ("Unexpected positional argument: " ++ arg))
    | p :: remPos' =>
      match parseArgValue p.type arg with
      | .ok v => .cont remPos' (setVal vals p.key v) 0
      | .error e =>
        .stop (.error ("Failed to parse value for positional argument " ++
          p.key ++ ": " ++ e))
      | .bug m => .stop (.bug m)

/-- The token scan (the `for` loop of `parseArgs`, lines 221–333).  The loop
is driven by a fuel counter; every iteration consumes at least one token and
one unit of fuel, so with `fuel = tokens.length` (as supplied by `parseArgs`)
the fuel never runs out and the out-of-fuel branch is unreachable. -/
def parseLoop (optDefs : List OptionDefWithKey) :
    Nat → List PosDefWithKey → List (String × Value) → List String →
    ParseOutcome
  | _, _, vals, [] => .ok vals
  | 0, _, _, _ :: _ => .bug "unreachable: fuel exhausted"
  | fuel + 1, remPos, vals, arg :: rest =>
    match scanStep optDefs remPos vals arg rest with
    | .stop o => o
    | .cont remPos' vals' n => parseLoop optDefs fuel remPos' vals' (rest.drop n)

/-- The initial result map: every declared spec with a `default` property,
in declaration order (`Object.fromEntries` over the filtered entries). -/
def defaults (defs : Schema) : List (String × Value) :=
  defs.filterMap (fun kd => kd.2.default.map (fun v => (kd.1, v)))

/-- Display name used in the missing-required message (lines 342–344):
positionals use the upper-cased kebab form of the key, options use
`--` plus `argDef.long || camelCaseToKebabCase(key)`. -/
def missingArgText (key : String) (d : ArgDef) : String :=
  if d.positional then
    "positional argument " ++ toUpperStr (camelCaseToKebabCase key)
  else
    "option --" ++ resolveLong d.long key

/-- The updated values after the boolean-coercion half of one post-processing
iteration (`argValues[key] = !!argValues[key]` for boolean specs). -/
def postVals (vals : List (String × Value)) (key : String) (d : ArgDef) :
    List (String × Value) :=
  if isBooleanType d.type then
    setVal vals key (.bool (truthyOpt (getVal vals key)))
  else vals

/-- Post-processing (lines 336–350): in declaration order, first coerce a
boolean spec's value with `!!`, then fail if a required spec's key is absent. -/
def postLoop : List (String × Value) → Schema → ParseOutcome
  | vals, [] => .ok vals
  | vals, (key, d) :: defsRest =>
    if d.required && (getVal (postVals vals key d) key).isNone then
      .error ("Missing required value for " ++ missingArgText key d)
    else
      postLoop (postVals vals key d) defsRest

/-- `parseArgs(argDefs, argsAfterBin)`. -/
def parseArgs (defs : Schema) (argsAfterBin : List String) : ParseOutcome :=
  match parseLoop (getOptionDefs defs) argsAfterBin.length
      (getPositionalArgDefs defs) (defaults defs) argsAfterBin with
  | .ok vals => postLoop vals defs
  | o => o

/-- The `parse` entry point built by `TSArgs`: skip the first two tokens
(interpreter and script path) and parse the rest. -/
def parseTop (defs : Schema) (argv : List String) : ParseOutcome :=
  parseArgs defs (argv.drop 2)

/-- `argDef.type === "string"`. -/
def isStringType : ArgTypeSpec → Bool
  | .string => true
  | _ => false

/-! ## Basic lemmas about the result map and the scan steps -/

theorem getVal_setVal_self (m : List (String × Value)) (k : String) (v : Value) :
    getVal (setVal m k v) k = some v := by
  induction m with
  | nil => simp [setVal, getVal]
  | cons p rest ih =>
    obtain ⟨k', w⟩ := p
    cases h : k' == k <;> simp [setVal, getVal, h, ih]

theorem getVal_setVal_ne (m : List (String × Value)) {k' k : String} (v : Value)
    (h : k' ≠ k) : getVal (setVal m k' v) k = getVal m k := by
  have hb : (k' == k) = false := beq_eq_false_iff_ne.mpr h
  induction m with
  | nil => simp [setVal, getVal, hb]
  | cons p rest ih =>
    obtain ⟨k0, w⟩ := p
    by_cases h0 : k0 = k'
    · subst h0
      simp [setVal, getVal, hb, h]
    · simp [setVal, getVal, beq_eq_false_iff_ne.mpr h0, ih]

theorem startsWith_dash_of_dashdash {t : String}
    (h : startsWithPfx "--" t = true) : startsWithPfx "-" t = true := by
  unfold startsWithPfx at *
  match ht : t.data with
  | [] => rw [ht] at h; simp [List.isPrefixOf] at h
  | c :: rest =>
    rw [ht] at h
    simp [List.isPrefixOf] at h ⊢
    exact h.1

/-- Unfolding of one loop iteration on a non-empty token list. -/
theorem parseLoop_cons (optDefs : List OptionDefWithKey) (fuel : Nat)
    (remPos : List PosDefWithKey) (vals : List (String × Value))
    (arg : String) (rest : List String) :
    parseLoop optDefs (fuel + 1) remPos vals (arg :: rest) =
      (match scanStep optDefs remPos vals arg rest with
       | .stop o => o
       | .cont remPos' vals' n =>
         parseLoop optDefs fuel remPos' vals' (rest.drop n)) := rfl

/-- One scan step on a `--…` token. -/
theorem scanStep_long (optDefs : List OptionDefWithKey)
    (remPos : List PosDefWithKey) (vals : List (String × Value))
    (arg : String) (rest : List String) (name : String) (inl : Option String)
    (hsp : splitLongArg arg = (name, inl)) (h : startsWithPfx "--" arg = true) :
    scanStep optDefs remPos vals arg rest =
      (match handleLong optDefs name inl vals rest with
       | .stop o => .stop o
       | .cont vals' n => .cont remPos vals' n) := by
  unfold scanStep
  rw [if_pos h, hsp]

/-- One scan step on a short-group token. -/
theorem scanStep_short (optDefs : List OptionDefWithKey)
    (remPos : List PosDefWithKey) (vals : List (String × Value))
    (arg : String) (rest : List String)
    (h2 : startsWithPfx "--" arg = false) (h1 : startsWithPfx "-" arg = true) :
    scanStep optDefs remPos vals arg rest =
      (match shortLoop optDefs (arg.data.drop 1) vals rest with
       | .stop o => .stop o
       | .cont vals' n => .cont remPos vals' n) := by
  unfold scanStep
  rw [if_neg (by simp [h2]), if_pos h1]

/-- One scan step on a positional token. -/
theorem scanStep_pos (optDefs : List OptionDefWithKey)
    (remPos : List PosDefWithKey) (vals : List (String × Value))
    (arg : String) (rest : List String) (h1 : startsWithPfx "-" arg = false) :
    scanStep optDefs remPos vals arg rest =
      (match remPos with
       | [] => .stop (.error ("Unexpected positional argument: " ++ arg))
       | p :: remPos' =>
         match parseArgValue p.type arg with
         | .ok v => .cont remPos' (setVal vals p.key v) 0
         | .error e =>
           .stop (.error ("Failed to parse value for positional argument " ++
             p.key ++ ": " ++ e))
         | .bug m => .stop (.bug m)) := by
  have h2 : startsWithPfx "--" arg = false := by
    cases h : startsWithPfx "--" arg
    · rfl
    · exact absurd (startsWith_dash_of_dashdash h) (by simp [h1])
  unfold scanStep
  rw [if_neg (by simp [h2]), if_neg (by simp [h1])]

/-- A candidate long name equal to `""` matches no spec: the lookup predicate
`def.long && def.long === name` requires a truthy (non-empty) resolved long. -/
theorem findLong_empty (optDefs : List OptionDefWithKey) :
    findLong optDefs "" = none := by
  induction optDefs with
  | nil => rfl
  | cons d rest ih =>
    have hp : (d.long != "" && d.long == "") = false := by
      cases h : d.long == "" <;> simp [bne, h]
    unfold findLong at ih ⊢
    rw [List.find?_cons, hp]
    exact ih

/-- A `"-"` token is a zero-character short group: the scan continues with
unchanged state and no extra token consumed. -/
theorem parseLoop_dash (optDefs : List OptionDefWithKey) (fuel : Nat)
    (remPos : List PosDefWithKey) (vals : List (String × Value))
    (rest : List String) :
    parseLoop optDefs (fuel + 1) remPos vals ("-" :: rest) =
      parseLoop optDefs fuel remPos vals rest := rfl

/-- A `"--"` token is a long option with empty candidate name, which never
matches any spec. -/
theorem parseLoop_dashdash (optDefs : List OptionDefWithKey) (fuel : Nat)
    (remPos : List PosDefWithKey) (vals : List (String × Value))
    (rest : List String) :
    parseLoop optDefs (fuel + 1) remPos vals ("--" :: rest) =
      .error "Unrecognized option --" := by
  rw [parseLoop_cons, scanStep_long optDefs remPos vals "--" rest "" none rfl (by decide)]
  unfold handleLong
  rw [findLong_empty]
  simp

/-! ## Lemmas about defaults and post-processing -/

theorem defaults_cons (k0 : String) (d0 : ArgDef) (rest : Schema) :
    defaults ((k0, d0) :: rest) =
      (match d0.default with
       | some v => (k0, v) :: defaults rest
       | none => defaults rest) := by
  unfold defaults
  rw [List.filterMap_cons]
  cases d0.default <;> rfl

theorem defaults_getVal_notMem (defs : Schema) (key : String)
    (h : key ∉ defs.map Prod.fst) : getVal (defaults defs) key = none := by
  induction defs with
  | nil => rfl
  | cons kd rest ih =>
    obtain ⟨k0, d0⟩ := kd
    simp only [List.map_cons, List.mem_cons, not_or] at h
    rw [defaults_cons]
    cases d0.default with
    | none => exact ih h.2
    | some v =>
      have : (k0 == key) = false := beq_eq_false_iff_ne.mpr (Ne.symm h.1)
      simp only [getVal, this, if_neg]
      · exact ih h.2

theorem getVal_defaults (defs : Schema) (key : String) (d : ArgDef)
    (hnd : (defs.map Prod.fst).Nodup) (hmem : (key, d) ∈ defs) :
    getVal (defaults defs) key = d.default := by
  induction defs with
  | nil => cases hmem
  | cons kd rest ih =>
    obtain ⟨k0, d0⟩ := kd
    rw [List.map_cons, List.nodup_cons] at hnd
    rw [defaults_cons]
    rcases List.mem_cons.mp hmem with heq | hmem'
    · have h1 : key = k0 := congrArg Prod.fst heq
      have h2 : d = d0 := congrArg Prod.snd heq
      subst h1
      subst h2
      cases hd : d.default with
      | some v => simp [getVal]
      | none => exact defaults_getVal_notMem rest key hnd.1
    · have hkne : key ≠ k0 := by
        intro hkk
        apply hnd.1
        have hx : key ∈ List.map Prod.fst rest := List.mem_map_of_mem Prod.fst hmem'
        rwa [hkk] at hx
      cases hd : d0.default with
      | none => exact ih hnd.2 hmem'
      | some v =>
        simp only [getVal, beq_eq_false_iff_ne.mpr (Ne.symm hkne), if_neg]
        · exact ih hnd.2 hmem'

theorem postLoop_cons (vals : List (String × Value)) (key : String)
    (d : ArgDef) (rest : Schema) :
    postLoop vals ((key, d) :: rest) =
      (if d.required && (getVal (postVals vals key d) key).isNone then
        .error ("Missing required value for " ++ missingArgText key d)
      else postLoop (postVals vals key d) rest) := rfl

/-- Post-processing does not touch keys outside the schema. -/
theorem postLoop_ok_getVal (defs : Schema) :
    ∀ (vals m : List (String × Value)) (key : String),
      key ∉ defs.map Prod.fst → postLoop vals defs = .ok m →
      getVal m key = getVal vals key := by
  induction defs with
  | nil =>
    intro vals m key _ h
    injection h with h'
    rw [← h']
  | cons kd rest ih =>
    intro vals m key hk h
    obtain ⟨k0, d0⟩ := kd
    simp only [List.map_cons, List.mem_cons, not_or] at hk
    rw [postLoop_cons] at h
    by_cases hc : (d0.required && (getVal (postVals vals k0 d0) k0).isNone) = true
    · rw [if_pos hc] at h
      simp at h
    · rw [if_neg hc] at h
      rw [ih (postVals vals k0 d0) m key hk.2 h]
      unfold postVals
      by_cases hb : isBooleanType d0.type = true
      · rw [if_pos hb, getVal_setVal_ne _ _ (Ne.symm hk.1)]
      · rw [if_neg hb]

/-- A boolean spec's key is always materialized to the truthiness-coercion of
the value it held when post-processing reached it. -/
theorem postLoop_ok_boolean (defs : Schema) :
    ∀ (vals m : List (String × Value)) (key : String) (d : ArgDef),
      (defs.map Prod.fst).Nodup → (key, d) ∈ defs →
      isBooleanType d.type = true → postLoop vals defs = .ok m →
      getVal m key = some (.bool (truthyOpt (getVal vals key))) := by
  induction defs with
  | nil => intro _ _ _ _ _ hmem; cases hmem
  | cons kd rest ih =>
    intro vals m key d hnd hmem hb h
    obtain ⟨k0, d0⟩ := kd
    rw [List.map_cons, List.nodup_cons] at hnd
    rw [postLoop_cons] at h
    rcases List.mem_cons.mp hmem with heq | hmem'
    · have h1 : key = k0 := congrArg Prod.fst heq
      have h2 : d = d0 := congrArg Prod.snd heq
      subst h1
      subst h2
      have hpv : postVals vals key d =
          setVal vals key (.bool (truthyOpt (getVal vals key))) := by
        unfold postVals
        rw [if_pos hb]
      rw [hpv, getVal_setVal_self] at h
      rw [show (Option.some (Value.bool (truthyOpt (getVal vals key)))).isNone = false from rfl,
        Bool.and_false, if_neg (by simp)] at h
      rw [postLoop_ok_getVal rest _ m key hnd.1 h, getVal_setVal_self]
    · have hkne : key ≠ k0 := by
        intro hkk
        apply hnd.1
        have hx : key ∈ List.map Prod.fst rest := List.mem_map_of_mem Prod.fst hmem'
        rwa [hkk] at hx
      have hpres : getVal (postVals vals k0 d0) key = getVal vals key := by
        unfold postVals
        by_cases hb0 : isBooleanType d0.type = true
        · rw [if_pos hb0, getVal_setVal_ne _ _ (Ne.symm hkne)]
        · rw [if_neg hb0]
      by_cases hc : (d0.required && (getVal (postVals vals k0 d0) k0).isNone) = true
      · rw [if_pos hc] at h
        simp at h
      · rw [if_neg hc] at h
        rw [ih (postVals vals k0 d0) m key d hnd.2 hmem' hb h, hpres]

/-- A required, non-boolean spec whose key is absent makes post-processing
fail. -/
theorem postLoop_missing_error (defs : Schema) :
    ∀ (vals : List (String × Value)) (key : String) (d : ArgDef),
      (defs.map Prod.fst).Nodup → (key, d) ∈ defs → d.required = true →
      isBooleanType d.type = false → getVal vals key = none →
      ∃ e, postLoop vals defs = .error e := by
  induction defs with
  | nil => intro _ _ _ _ hmem; cases hmem
  | cons kd rest ih =>
    intro vals key d hnd hmem hreq hb hnone
    obtain ⟨k0, d0⟩ := kd
    rw [List.map_cons, List.nodup_cons] at hnd
    rw [postLoop_cons]
    rcases List.mem_cons.mp hmem with heq | hmem'
    · have h1 : key = k0 := congrArg Prod.fst heq
      have h2 : d = d0 := congrArg Prod.snd heq
      subst h1
      subst h2
      have hpv : postVals vals key d = vals := by
        unfold postVals
        rw [if_neg (by simp [hb])]
      rw [hpv, hnone, hreq]
      exact ⟨_, if_pos rfl⟩
    · have hkne : key ≠ k0 := by
        intro hkk
        apply hnd.1
        have hx : key ∈ List.map Prod.fst rest := List.mem_map_of_mem Prod.fst hmem'
        rwa [hkk] at hx
      have hpres : getVal (postVals vals k0 d0) key = getVal vals key := by
        unfold postVals
        by_cases hb0 : isBooleanType d0.type = true
        · rw [if_pos hb0, getVal_setVal_ne _ _ (Ne.symm hkne)]
        · rw [if_neg hb0]
      by_cases hc : (d0.required && (getVal (postVals vals k0 d0) k0).isNone) = true
      · rw [if_pos hc]
        exact ⟨_, rfl⟩
      · rw [if_neg hc]
        exact ih (postVals vals k0 d0) key d hnd.2 hmem' hreq hb (hpres.trans hnone)

/-- Every error produced by post-processing is a missing-required error whose
argument display name comes from `missingArgText`. -/
theorem postLoop_error_form (defs : Schema) :
    ∀ (vals : List (String × Value)) (e : String), postLoop vals defs = .error e →
      ∃ k d, (k, d) ∈ defs ∧ d.required = true ∧
        e = "Missing required value for " ++ missingArgText k d := by
  induction defs with
  | nil => intro vals e h; simp [postLoop] at h
  | cons kd rest ih =>
    intro vals e h
    obtain ⟨k0, d0⟩ := kd
    rw [postLoop_cons] at h
    by_cases hc : (d0.required && (getVal (postVals vals k0 d0) k0).isNone) = true
    · rw [if_pos hc] at h
      injection h with h'
      exact ⟨k0, d0, List.mem_cons_self .., (Bool.and_eq_true ..|>.mp hc).1, h'.symm⟩
    · rw [if_neg hc] at h
      obtain ⟨k, d, hm, hr, he⟩ := ih (postVals vals k0 d0) e h
      exact ⟨k, d, List.mem_cons_of_mem _ hm, hr, he⟩

/-! ## Scan preservation for options never supplied on the command line -/

/-- Unfolding of one step of the short-group loop. -/
theorem shortLoop_cons (optDefs : List OptionDefWithKey) (c : Char)
    (cs : List Char) (vals : List (String × Value)) (toks : List String) :
    shortLoop optDefs (c :: cs) vals toks =
      (match optDefs.find? (fun d => d.short == some (String.singleton c)) with
       | none => .stop (.error ("Unrecognized option -" ++ String.singleton c))
       | some d =>
         if isBooleanType d.type then
           shortLoop optDefs cs (setVal vals d.key (.bool true)) toks
         else
           match toks with
           | [] => .stop (.error ("Missing value for option -" ++ String.singleton c))
           | next :: toks' =>
             if next == "" || startsWithPfx "-" next then
               .stop (.error ("Missing value for option -" ++ String.singleton c))
             else
               match parseArgValue d.type next with
               | .ok v =>
                 match shortLoop optDefs cs (setVal vals d.key v) toks' with
                 | .cont vals'' n => .cont vals'' (n + 1)
                 | .stop o => .stop o
               | .error e =>
                 .stop (.error ("Failed to parse value for option -" ++
                   String.singleton c ++ ": " ++ e))
               | .bug m => .stop (.bug m)) := rfl

/-- Would the short-group character `c` resolve (first match) to the spec with
this key? -/
def shortCharWritesKey (optDefs : List OptionDefWithKey) (key : String)
    (c : Char) : Bool :=
  match optDefs.find? (fun d => d.short == some (String.singleton c)) with
  | some d => d.key == key
  | none => false

/-- Does the token `t`, read the way the scanner classifies it, resolve to the
option with this key — as a long token whose candidate name looks up (first
match) to that spec, or as a short group containing a character that does?
`mentionsKey … = false` on every token formalizes "the option is never
supplied on the command line". -/
def mentionsKey (optDefs : List OptionDefWithKey) (key : String)
    (t : String) : Bool :=
  if startsWithPfx "--" t then
    match findLong optDefs (splitLongArg t).1 with
    | some d => d.key == key
    | none => false
  else if startsWithPfx "-" t then
    (t.data.drop 1).any (shortCharWritesKey optDefs key)
  else false

/-- When handling a long token continues the scan, it has stored a value under
the key of the spec the candidate name looked up to. -/
theorem handleLong_cont (optDefs : List OptionDefWithKey) (name : String)
    (inl : Option String) (vals : List (String × Value)) (rest : List String)
    (vals2 : List (String × Value)) (n : Nat)
    (h : handleLong optDefs name inl vals rest = .cont vals2 n) :
    ∃ d v, findLong optDefs name = some d ∧ vals2 = setVal vals d.key v := by
  cases hf : findLong optDefs name with
  | none => simp [handleLong, hf] at h
  | some d =>
    simp only [handleLong, hf] at h
    by_cases hb : isBooleanType d.type = true
    · rw [if_pos hb] at h
      by_cases ht : truthyStrOpt inl = true
      · rw [if_pos ht] at h
        simp at h
      · rw [if_neg ht] at h
        injection h with h1 h2
        exact ⟨d, .bool true, rfl, h1.symm⟩
    · rw [if_neg hb] at h
      cases inl with
      | some v =>
        dsimp only at h
        cases hpv : parseArgValue d.type v with
        | ok value =>
          simp only [hpv] at h
          injection h with h1 h2
          exact ⟨d, value, rfl, h1.symm⟩
        | error e => simp [hpv] at h
        | bug m => simp [hpv] at h
      | none =>
        cases rest with
        | nil => simp at h
        | cons next rest' =>
          dsimp only at h
          by_cases hc : (next == "" || startsWithPfx "-" next) = true
          · rw [if_pos hc] at h
            simp at h
          · rw [if_neg hc] at h
            cases hpv : parseArgValue d.type next with
            | ok value =>
              simp only [hpv] at h
              injection h with h1 h2
              exact ⟨d, value, rfl, h1.symm⟩
            | error e => simp [hpv] at h
            | bug m => simp [hpv] at h

/-- `handleLong` never stops the parse with a success outcome. -/
theorem handleLong_stop_no_ok (optDefs : List OptionDefWithKey) (name : String)
    (inl : Option String) (vals : List (String × Value)) (rest : List String)
    (m : List (String × Value))
    (h : handleLong optDefs name inl vals rest = .stop (.ok m)) : False := by
  cases hf : findLong optDefs name with
  | none => simp [handleLong, hf] at h
  | some d =>
    simp only [handleLong, hf] at h
    by_cases hb : isBooleanType d.type = true
    · rw [if_pos hb] at h
      by_cases ht : truthyStrOpt inl = true
      · rw [if_pos ht] at h
        simp at h
      · rw [if_neg ht] at h
        simp at h
    · rw [if_neg hb] at h
      cases inl with
      | some v =>
        dsimp only at h
        cases hpv : parseArgValue d.type v with
        | ok value => simp [hpv] at h
        | error e => simp [hpv] at h
        | bug mm => simp [hpv] at h
      | none =>
        cases rest with
        | nil => simp at h
        | cons next rest' =>
          dsimp only at h
          by_cases hc : (next == "" || startsWithPfx "-" next) = true
          · rw [if_pos hc] at h
            simp at h
          · rw [if_neg hc] at h
            cases hpv : parseArgValue d.type next with
            | ok value => simp [hpv] at h
            | error e => simp [hpv] at h
            | bug mm => simp [hpv] at h

/-- `shortLoop` never stops the parse with a success outcome. -/
theorem shortLoop_stop_no_ok (optDefs : List OptionDefWithKey) :
    ∀ (chars : List Char) (vals : List (String × Value)) (toks : List String)
      (m : List (String × Value)),
      shortLoop optDefs chars vals toks = .stop (.ok m) → False := by
  intro chars
  induction chars with
  | nil =>
    intro vals toks m h
    rw [show shortLoop optDefs [] vals toks = .cont vals 0 from rfl] at h
    simp at h
  | cons c cs ih =>
    intro vals toks m h
    rw [shortLoop_cons] at h
    cases hf : optDefs.find? (fun d => d.short == some (String.singleton c)) with
    | none => simp [hf] at h
    | some d =>
      simp only [hf] at h
      by_cases hb : isBooleanType d.type = true
      · rw [if_pos hb] at h
        exact ih _ _ _ h
      · rw [if_neg hb] at h
        cases toks with
        | nil => simp at h
        | cons next toks' =>
          dsimp only at h
          by_cases hc : (next == "" || startsWithPfx "-" next) = true
          · rw [if_pos hc] at h
            simp at h
          · rw [if_neg hc] at h
            cases hpv : parseArgValue d.type next with
            | ok v =>
              simp only [hpv] at h
              cases hsl : shortLoop optDefs cs (setVal vals d.key v) toks' with
              | cont vals'' n' => simp [hsl] at h
              | stop o =>
                simp only [hsl] at h
                injection h with h1
                exact ih _ _ _ (h1 ▸ hsl)
            | error e => simp [hpv] at h
            | bug mm => simp [hpv] at h

/-- When a short group continues the scan without any of its characters
resolving to `key`, the value stored under `key` is unchanged. -/
theorem shortLoop_cont_getVal (optDefs : List OptionDefWithKey) (key : String) :
    ∀ (chars : List Char) (vals : List (String × Value)) (toks : List String)
      (vals2 : List (String × Value)) (n : Nat),
      shortLoop optDefs chars vals toks = .cont vals2 n →
      (∀ c ∈ chars, shortCharWritesKey optDefs key c = false) →
      getVal vals2 key = getVal vals key := by
  intro chars
  induction chars with
  | nil =>
    intro vals toks vals2 n h _
    rw [show shortLoop optDefs [] vals toks = .cont vals 0 from rfl] at h
    injection h with h1 h2
    rw [← h1]
  | cons c cs ih =>
    intro vals toks vals2 n h hc
    have hcs : ∀ x ∈ cs, shortCharWritesKey optDefs key x = false :=
      fun x hx => hc x (.tail _ hx)
    rw [shortLoop_cons] at h
    cases hf : optDefs.find? (fun d => d.short == some (String.singleton c)) with
    | none => simp [hf] at h
    | some d =>
      have hdk : d.key ≠ key := by
        have hcc := hc c (.head _)
        simp only [shortCharWritesKey, hf] at hcc
        exact beq_eq_false_iff_ne.mp hcc
      simp only [hf] at h
      by_cases hb : isBooleanType d.type = true
      · rw [if_pos hb] at h
        rw [ih _ _ _ _ h hcs, getVal_setVal_ne _ _ hdk]
      · rw [if_neg hb] at h
        cases toks with
        | nil => simp at h
        | cons next toks' =>
          dsimp only at h
          by_cases hcnd : (next == "" || startsWithPfx "-" next) = true
          · rw [if_pos hcnd] at h
            simp at h
          · rw [if_neg hcnd] at h
            cases hpv : parseArgValue d.type next with
            | ok v =>
              simp only [hpv] at h
              cases hsl : shortLoop optDefs cs (setVal vals d.key v) toks' with
              | cont vals'' n' =>
                simp only [hsl] at h
                injection h with h1 h2
                rw [← h1, ih _ _ _ _ hsl hcs, getVal_setVal_ne _ _ hdk]
              | stop o => simp [hsl] at h
            | error e => simp [hpv] at h
            | bug mm => simp [hpv] at h

/-- One scan step never stops the parse with a success outcome. -/
theorem scanStep_stop_no_ok (optDefs : List OptionDefWithKey)
    (remPos : List PosDefWithKey) (vals : List (String × Value))
    (arg : String) (rest : List String) (m : List (String × Value)) :
    scanStep optDefs remPos vals arg rest ≠ .stop (.ok m) := by
  by_cases h2 : startsWithPfx "--" arg = true
  · intro h
    rcases hsp : splitLongArg arg with ⟨name, inl⟩
    rw [scanStep_long optDefs remPos vals arg rest name inl hsp h2] at h
    cases hh : handleLong optDefs name inl vals rest with
    | stop o =>
      simp only [hh] at h
      injection h with h1
      exact handleLong_stop_no_ok optDefs name inl vals rest m (h1 ▸ hh)
    | cont v2 n2 => simp [hh] at h
  · by_cases h1 : startsWithPfx "-" arg = true
    · intro h
      rw [scanStep_short optDefs remPos vals arg rest (by simpa using h2) h1] at h
      cases hh : shortLoop optDefs (arg.data.drop 1) vals rest with
      | stop o =>
        simp only [hh] at h
        injection h with h3
        exact shortLoop_stop_no_ok optDefs (arg.data.drop 1) vals rest m (h3 ▸ hh)
      | cont v2 n2 =>
        rw [hh] at h
        simp at h
    · intro h
      rw [scanStep_pos optDefs remPos vals arg rest (by simpa using h1)] at h
      cases remPos with
      | nil => simp at h
      | cons p ps =>
        cases hpv : parseArgValue p.type arg with
        | ok v => simp [hpv] at h
        | error e => simp [hpv] at h
        | bug mm => simp [hpv] at h

/-- Keys are unique in a schema: two entries with the same key are the same
entry. -/
theorem snd_unique_of_nodup (defs : Schema) (k : String) (a b : ArgDef)
    (hnd : (defs.map Prod.fst).Nodup) (ha : (k, a) ∈ defs)
    (hb : (k, b) ∈ defs) : a = b := by
  induction defs with
  | nil => cases ha
  | cons kd rest ih =>
    rw [List.map_cons, List.nodup_cons] at hnd
    rcases List.mem_cons.mp ha with hha | hha
    · rcases List.mem_cons.mp hb with hhb | hhb
      · exact congrArg Prod.snd (hha.trans hhb.symm)
      · exfalso
        apply hnd.1
        have hx : k ∈ List.map Prod.fst rest := List.mem_map_of_mem Prod.fst hhb
        rw [show kd.1 = k from by rw [← hha]]
        exact hx
    · rcases List.mem_cons.mp hb with hhb | hhb
      · exfalso
        apply hnd.1
        have hx : k ∈ List.map Prod.fst rest := List.mem_map_of_mem Prod.fst hha
        rw [show kd.1 = k from by rw [← hhb]]
        exact hx
      · exact ih hnd.2 hha hhb

/-- The key of a non-positional entry is no positional spec's key. -/
theorem pos_keys_ne (defs : Schema) (key : String) (d : ArgDef)
    (hnd : (defs.map Prod.fst).Nodup) (hmem : (key, d) ∈ defs)
    (hpos : d.positional = false) :
    ∀ p ∈ getPositionalArgDefs defs, p.key ≠ key := by
  intro p hp hkey
  unfold getPositionalArgDefs at hp
  rw [List.mem_map] at hp
  obtain ⟨kd, hkd, hpk⟩ := hp
  rw [List.mem_filter] at hkd
  obtain ⟨hkdmem, hkdpos⟩ := hkd
  have hk1 : p.key = kd.1 := by rw [← hpk]
  rw [hk1] at hkey
  have hmem2 : (key, kd.2) ∈ defs := by
    rw [← hkey]
    simpa using hkdmem
  have hd2 : kd.2 = d := snd_unique_of_nodup defs key kd.2 d hnd hmem2 hmem
  rw [hd2, hpos] at hkdpos
  exact absurd hkdpos (by simp)

/-- The scan never writes a key that no token mentions (as a resolved long or
short flag) and that no remaining positional spec carries: the value stored
under such a key after a successful scan is whatever it was before. -/
theorem parseLoop_not_supplied (optDefs : List OptionDefWithKey) (key : String) :
    ∀ (fuel : Nat) (ts : List String) (remPos : List PosDefWithKey)
      (vals vals' : List (String × Value)),
      (∀ t ∈ ts, mentionsKey optDefs key t = false) →
      (∀ p ∈ remPos, p.key ≠ key) →
      parseLoop optDefs fuel remPos vals ts = .ok vals' →
      getVal vals' key = getVal vals key := by
  intro fuel
  induction fuel with
  | zero =>
    intro ts remPos vals vals' _ _ h
    cases ts with
    | nil =>
      injection h with h1
      rw [← h1]
    | cons t ts' =>
      rw [show parseLoop optDefs 0 remPos vals (t :: ts') =
        .bug "unreachable: fuel exhausted" from rfl] at h
      simp at h
  | succ f ih =>
    intro ts remPos vals vals' hts hpos h
    cases ts with
    | nil =>
      injection h with h1
      rw [← h1]
    | cons t rest =>
      rw [parseLoop_cons] at h
      cases hsc : scanStep optDefs remPos vals t rest with
      | stop o =>
        simp only [hsc] at h
        exact absurd (h ▸ hsc) (scanStep_stop_no_ok optDefs remPos vals t rest vals')
      | cont remPos' vals2 n =>
        simp only [hsc] at h
        obtain ⟨hval, hrem⟩ : getVal vals2 key = getVal vals key
            ∧ (∀ p ∈ remPos', p.key ≠ key) := by
          by_cases h2 : startsWithPfx "--" t = true
          · rcases hsp : splitLongArg t with ⟨name, inl⟩
            rw [scanStep_long optDefs remPos vals t rest name inl hsp h2] at hsc
            cases hh : handleLong optDefs name inl vals rest with
            | stop o => simp [hh] at hsc
            | cont v2 n2 =>
              simp only [hh] at hsc
              injection hsc with hr hv hn
              obtain ⟨d, v, hfd, hset⟩ :=
                handleLong_cont optDefs name inl vals rest v2 n2 hh
              have hdk : d.key ≠ key := by
                have hm := hts t (.head _)
                unfold mentionsKey at hm
                rw [if_pos h2] at hm
                have hsp1 : (splitLongArg t).1 = name := by rw [hsp]
                simp only [hsp1, hfd] at hm
                exact beq_eq_false_iff_ne.mp hm
              constructor
              · rw [← hv, hset, getVal_setVal_ne _ _ hdk]
              · intro p hp
                rw [← hr] at hp
                exact hpos p hp
          · have h2f : startsWithPfx "--" t = false := by simpa using h2
            by_cases h1 : startsWithPfx "-" t = true
            · rw [scanStep_short optDefs remPos vals t rest h2f h1] at hsc
              cases hh : shortLoop optDefs (t.data.drop 1) vals rest with
              | stop o =>
                rw [hh] at hsc
                simp at hsc
              | cont v2 n2 =>
                simp only [hh] at hsc
                injection hsc with hr hv hn
                have hchars : ∀ c ∈ t.data.drop 1,
                    shortCharWritesKey optDefs key c = false := by
                  have hm := hts t (.head _)
                  unfold mentionsKey at hm
                  rw [if_neg (by simp [h2f]), if_pos h1] at hm
                  rw [List.any_eq_false] at hm
                  intro c hcm
                  simpa using hm c hcm
                constructor
                · rw [← hv]
                  exact shortLoop_cont_getVal optDefs key (t.data.drop 1)
                    vals rest v2 n2 hh hchars
                · intro p hp
                  rw [← hr] at hp
                  exact hpos p hp
            · have h1f : startsWithPfx "-" t = false := by simpa using h1
              rw [scanStep_pos optDefs remPos vals t rest h1f] at hsc
              cases remPos with
              | nil => simp at hsc
              | cons p ps =>
                cases hpv : parseArgValue p.type t with
                | ok v =>
                  simp only [hpv] at hsc
                  injection hsc with hr hv hn
                  constructor
                  · rw [← hv, getVal_setVal_ne _ _ (hpos p (.head _))]
                  · intro q hq
                    rw [← hr] at hq
                    exact hpos q (.tail _ hq)
                | error e => simp [hpv] at hsc
                | bug mm => simp [hpv] at hsc
        have hts' : ∀ x ∈ rest.drop n, mentionsKey optDefs key x = false :=
          fun x hx => hts x (.tail _ (List.drop_subset n rest hx))
        rw [ih (rest.drop n) remPos' vals2 vals' hts' hrem h, hval]

/-! ## Claims C1, C2, C3 -/

/-- Claim C1 (amended, proved): `long: false` does not suppress the long form;
like unset `long` it is falsy, so `argDef.long || camelCaseToKebabCase(key)`
derives the long name from the key, and the option is matchable by that
derived `--name` token.  A non-empty string `long` overrides the derived name.
The behavioural conjuncts show a `long: false` boolean option being normalized
with a derived long name and being matched by its derived `--verbose` form. -/
theorem C1_long_false_derives :
    (∀ k, resolveLong .fls k = camelCaseToKebabCase k)
    ∧ (∀ k, resolveLong .undef k = camelCaseToKebabCase k)
    ∧ (∀ k s, s ≠ "" → resolveLong (.str s) k = s)
    ∧ getOptionDefs [("verbose", { long := .fls, short := some "v", type := .boolean })] =
        [{ key := "verbose", long := "verbose", short := some "v", type := .boolean }]
    ∧ parseArgs [("verbose", { long := .fls, short := some "v", type := .boolean })]
        ["--verbose"] = .ok [("verbose", .bool true)] := by
  refine ⟨fun k => rfl, fun k => rfl, ?_, rfl, rfl⟩
  intro k s h
  simp [resolveLong, h]

/-- Claim C1 counterexample: an option declared with `long: false` *is*
matched by a `--name` token (the derived `--verbose`), contradicting the
claim that no `--name` token can match it. -/
theorem C1_counterexample :
    parseArgs [("verbose", { long := .fls, short := some "v", type := .boolean })]
      ["--verbose"] = .ok [("verbose", .bool true)]
    ∧ parseArgs [("verbose", { long := .fls, short := some "v", type := .boolean })]
      ["--verbose"] ≠ .error "Unrecognized option --verbose" := by
  exact ⟨rfl, by decide⟩

/-- Claim C1 witness: a non-empty string `long` overrides the derived name. -/
theorem C1_witness : resolveLong (.str "output-file") "outFile" = "output-file" :=
  C1_long_false_derives.2.2.1 "outFile" "output-file" (by decide)

/-- Claim C2 (amended, proved): for every schema and token list in which a
boolean-typed option is never supplied on the command line — no token mentions
it, i.e. no token's long-candidate name looks up to it and no short group
contains a character that does — a successful parse maps that option's key to
the JS truthiness-coercion (`!!`) of its pre-seeded default: `false` exactly
when no default is declared or the default is falsy, not `false` regardless of
the default.  And in every successful result, every boolean spec's value is a
definite boolean. -/
theorem C2_boolean_materialization (defs : Schema) (key : String) (d : ArgDef)
    (hnd : (defs.map Prod.fst).Nodup) (hmem : (key, d) ∈ defs)
    (hpos : d.positional = false) (hb : isBooleanType d.type = true) :
    (∀ ts m, (∀ t ∈ ts, mentionsKey (getOptionDefs defs) key t = false) →
      parseArgs defs ts = .ok m →
      getVal m key = some (.bool (truthyOpt d.default)))
    ∧ (∀ ts m, parseArgs defs ts = .ok m →
      ∃ b, getVal m key = some (.bool b)) := by
  constructor
  · intro ts m hnever h
    unfold parseArgs at h
    cases hl : parseLoop (getOptionDefs defs) ts.length (getPositionalArgDefs defs)
        (defaults defs) ts with
    | ok vals =>
      rw [hl] at h
      have hpres := parseLoop_not_supplied (getOptionDefs defs) key ts.length ts
        (getPositionalArgDefs defs) (defaults defs) vals hnever
        (pos_keys_ne defs key d hnd hmem hpos) hl
      rw [postLoop_ok_boolean defs vals m key d hnd hmem hb h, hpres,
        getVal_defaults defs key d hnd hmem]
    | error e => rw [hl] at h; simp at h
    | bug b => rw [hl] at h; simp at h
  · intro ts m h
    unfold parseArgs at h
    cases hl : parseLoop (getOptionDefs defs) ts.length (getPositionalArgDefs defs)
        (defaults defs) ts with
    | ok vals =>
      rw [hl] at h
      exact ⟨_, postLoop_ok_boolean defs vals m key d hnd hmem hb h⟩
    | error e => rw [hl] at h; simp at h
    | bug b => rw [hl] at h; simp at h

/-- Claim C2 counterexample: a boolean option with `default: true` that is
never supplied yields `true`, not `false`: `!!argValues[key]` is applied to
the pre-seeded default instead of discarding it. -/
theorem C2_counterexample :
    parseArgs [("flag", { type := .boolean, default := some (.bool true) })] [] =
      .ok [("flag", .bool true)]
    ∧ parseArgs [("flag", { type := .boolean, default := some (.bool true) })] [] ≠
      .ok [("flag", .bool false)] := by
  exact ⟨rfl, by decide⟩

/-- Claim C2 witness: a non-empty token list supplying a *different* option
while the boolean stays unsupplied; the boolean (no declared default) comes
out as `false`. -/
theorem C2_witness :
    getVal [("name", Value.str "v"), ("flag", Value.bool false)] "flag" =
      some (.bool (truthyOpt none)) :=
  (C2_boolean_materialization
      [("flag", { type := .boolean }), ("name", { type := .string })] "flag"
      { type := .boolean } (by decide) (List.Mem.head _) rfl rfl).1
    ["--name", "v"] [("name", .str "v"), ("flag", .bool false)] (by decide) rfl

/-- Claim C3 (amended, proved): restricted to non-boolean specs — a required
spec whose key is absent after the scan makes the parse fail, *unless* it is a
boolean spec, whose key is materialized before the required check ever runs
(see the counterexample).  Every such failure message is
`"Missing required value for " ++ missingArgText k d`, which names an option
by its resolved long form — the explicit `long` when declared non-empty,
otherwise the kebab-cased key; the short form is never used because every
option resolves to some long name — and names a positional by the upper-cased
kebab form of its key. -/
theorem C3_missing_required (defs : Schema) (vals : List (String × Value)) :
    (∀ e, postLoop vals defs = .error e →
      ∃ k d, (k, d) ∈ defs ∧ d.required = true ∧
        e = "Missing required value for " ++ missingArgText k d)
    ∧ ((defs.map Prod.fst).Nodup →
      ∀ k d, (k, d) ∈ defs → d.required = true → isBooleanType d.type = false →
        getVal vals k = none → ∃ e, postLoop vals defs = .error e)
    ∧ (∀ k (d : ArgDef) s, d.positional = false → d.long = .str s → s ≠ "" →
        missingArgText k d = "option --" ++ s)
    ∧ (∀ k (d : ArgDef), d.positional = false → d.long = .undef →
        missingArgText k d = "option --" ++ camelCaseToKebabCase k)
    ∧ (∀ k (d : ArgDef), d.positional = true →
        missingArgText k d =
          "positional argument " ++ toUpperStr (camelCaseToKebabCase k)) := by
  refine ⟨postLoop_error_form defs vals,
    fun hnd k d hm hr hb hn => postLoop_missing_error defs vals k d hnd hm hr hb hn,
    ?_, ?_, ?_⟩
  · intro k d s hpos hlong hs
    unfold missingArgText
    rw [if_neg (by rw [hpos]; exact Bool.false_ne_true), hlong]
    simp [resolveLong, hs]
  · intro k d hpos hlong
    unfold missingArgText
    rw [if_neg (by rw [hpos]; exact Bool.false_ne_true), hlong]
    simp [resolveLong]
  · intro k d hpos
    unfold missingArgText
    rw [if_pos hpos]

/-- Claim C3 counterexample: a `required: true` boolean spec never supplied is
absent from the result map after the scan, yet the parse succeeds (with the
key materialized to `false`) instead of returning the missing-required error,
because boolean coercion runs before the required check. -/
theorem C3_counterexample :
    parseArgs [("flag", { type := .boolean, required := true })] [] =
      .ok [("flag", .bool false)]
    ∧ parseArgs [("flag", { type := .boolean, required := true })] [] ≠
      .error "Missing required value for option --flag" := by
  exact ⟨rfl, by decide⟩

/-- Claim C3 witness: a required, never-supplied string option makes
post-processing fail. -/
theorem C3_witness :
    ∃ e, postLoop [] [("file", { type := .string, required := true })] = .error e :=
  (C3_missing_required [("file", { type := .string, required := true })] []).2.1
    (by decide) "file" { type := .string, required := true }
    (List.Mem.head _) rfl rfl rfl

/-! ## Claims C4, C5, C6 -/

/-- Claim C4 (amended, proved): for a boolean option matched as a long option,
a *non-empty* inline value is rejected — with the message the code actually
emits, `"Unexpect value provided for boolean option --<name>"` (sic, not
"Unexpected") — while an *empty* inline value (`--name=`) is falsy and, like
the bare flag `--name`, sets the option to `true`. -/
theorem C4_boolean_inline_value (optDefs : List OptionDefWithKey)
    (name : String) (d : OptionDefWithKey)
    (hf : findLong optDefs name = some d) (hb : isBooleanType d.type = true) :
    (∀ (v : String) (vals : List (String × Value)) (rest : List String),
      v ≠ "" →
      handleLong optDefs name (some v) vals rest =
        .stop (.error ("Unexpect value provided for boolean option --" ++ name)))
    ∧ (∀ (vals : List (String × Value)) (rest : List String),
      handleLong optDefs name (some "") vals rest =
        .cont (setVal vals d.key (.bool true)) 0)
    ∧ (∀ (vals : List (String × Value)) (rest : List String),
      handleLong optDefs name none vals rest =
        .cont (setVal vals d.key (.bool true)) 0)
    ∧ parseArgs [("flag", { type := .boolean })] ["--flag=x"] =
        .error "Unexpect value provided for boolean option --flag"
    ∧ parseArgs [("flag", { type := .boolean })] ["--flag="] =
        .ok [("flag", .bool true)]
    ∧ parseArgs [("flag", { type := .boolean })] ["--flag"] =
        .ok [("flag", .bool true)] := by
  refine ⟨?_, ?_, ?_, rfl, rfl, rfl⟩
  · intro v vals rest hv
    simp [handleLong, hf, hb, truthyStrOpt, hv]
  · intro vals rest
    simp [handleLong, hf, hb, truthyStrOpt]
  · intro vals rest
    simp [handleLong, hf, hb, truthyStrOpt]

/-- Claim C4 counterexample: the code's message for `--flag=x` is
`"Unexpect value …"`, not the claimed `"Unexpected value …"`, and the
`--flag=` form of `--name=value` produces no error at all (the empty inline
value is falsy), instead setting the flag. -/
theorem C4_counterexample :
    parseArgs [("flag", { type := .boolean })] ["--flag=x"] =
      .error "Unexpect value provided for boolean option --flag"
    ∧ parseArgs [("flag", { type := .boolean })] ["--flag=x"] ≠
      .error "Unexpected value provided for boolean option --flag"
    ∧ parseArgs [("flag", { type := .boolean })] ["--flag="] =
      .ok [("flag", .bool true)] := by
  exact ⟨rfl, by decide, rfl⟩

/-- Claim C4 witness: the non-empty inline value branch at a concrete input. -/
theorem C4_witness :
    handleLong [{ key := "flag", long := "flag", type := .boolean }] "flag"
      (some "x") [] [] =
      .stop (.error "Unexpect value provided for boolean option --flag") :=
  (C4_boolean_inline_value [{ key := "flag", long := "flag", type := .boolean }]
    "flag" { key := "flag", long := "flag", type := .boolean } rfl rfl).1
    "x" [] [] (by decide)

/-- Claim C5 (amended, proved): for a matched non-boolean long option with no
inline value, the value is taken from the next token; the `Missing value`
error fires not only when there is no next token or the next token starts
with `-`, but also when the next token is the *empty string* (the code's
`!nextArg` check is a falsy check).  Otherwise the next token is consumed —
parsed per value kind and stored on success, wrapped as a parse failure
otherwise — and the scan resumes past all consumed tokens. -/
theorem C5_long_option_value_consumption (optDefs : List OptionDefWithKey)
    (name : String) (d : OptionDefWithKey)
    (hf : findLong optDefs name = some d) (hnb : isBooleanType d.type = false) :
    (∀ vals, handleLong optDefs name none vals [] =
      .stop (.error ("Missing value for option --" ++ name)))
    ∧ (∀ vals (next : String) rest,
      next = "" ∨ startsWithPfx "-" next = true →
      handleLong optDefs name none vals (next :: rest) =
        .stop (.error ("Missing value for option --" ++ name)))
    ∧ (∀ vals (next : String) rest v,
      next ≠ "" → startsWithPfx "-" next = false →
      parseArgValue d.type next = .ok v →
      handleLong optDefs name none vals (next :: rest) =
        .cont (setVal vals d.key v) 1)
    ∧ (∀ vals (next : String) rest e,
      next ≠ "" → startsWithPfx "-" next = false →
      parseArgValue d.type next = .error e →
      handleLong optDefs name none vals (next :: rest) =
        .stop (.error ("Failed to parse value for option --" ++ name ++ ": " ++ e)))
    ∧ (∀ (optDefs2 : List OptionDefWithKey) fuel remPos vals (arg : String)
        rest vals' n,
      startsWithPfx "--" arg = true →
      handleLong optDefs2 (splitLongArg arg).1 (splitLongArg arg).2 vals rest =
        .cont vals' n →
      parseLoop optDefs2 (fuel + 1) remPos vals (arg :: rest) =
        parseLoop optDefs2 fuel remPos vals' (rest.drop n))
    ∧ parseArgs [("name", { type := .string })] ["--name", "v"] =
        .ok [("name", .str "v")] := by
  refine ⟨?_, ?_, ?_, ?_, ?_, rfl⟩
  · intro vals
    simp [handleLong, hf, hnb]
  · intro vals next rest h
    have hc : (next == "" || startsWithPfx "-" next) = true := by
      rcases h with h | h
      · subst h; rfl
      · simp [h]
    simp [handleLong, hf, hnb, hc]
  · intro vals next rest v h1 h2 hpv
    have hc : (next == "" || startsWithPfx "-" next) = false := by
      simp [h1, h2]
    simp [handleLong, hf, hnb, hc, hpv]
  · intro vals next rest e h1 h2 hpv
    have hc : (next == "" || startsWithPfx "-" next) = false := by
      simp [h1, h2]
    simp [handleLong, hf, hnb, hc, hpv]
  · intro optDefs2 fuel remPos vals arg rest vals' n hstart hcont
    rw [parseLoop_cons,
      scanStep_long optDefs2 remPos vals arg rest (splitLongArg arg).1
        (splitLongArg arg).2 rfl hstart, hcont]

/-- Claim C5 counterexample: an empty-string next token exists and does not
start with `-`, yet the parse reports `Missing value` instead of consuming it
as the option's value. -/
theorem C5_counterexample :
    parseArgs [("name", { type := .string })] ["--name", ""] =
      .error "Missing value for option --name"
    ∧ parseArgs [("name", { type := .string })] ["--name", ""] ≠
      .ok [("name", .str "")] := by
  exact ⟨rfl, by decide⟩

/-- Claim C5 witness: next token `"-x"` starts with `-`, giving the missing
value error at a concrete input. -/
theorem C5_witness :
    handleLong [{ key := "name", long := "name", type := .string }] "name"
      none [] ["-x"] =
      .stop (.error "Missing value for option --name") :=
  (C5_long_option_value_consumption
    [{ key := "name", long := "name", type := .string }] "name"
    { key := "name", long := "name", type := .string } rfl rfl).2.1
    [] "-x" [] (Or.inr (by decide))

/-- The result map after assigning a run of raw tokens to string-typed
positional specs pairwise in order. -/
def assignPos (vals : List (String × Value)) (ps : List PosDefWithKey)
    (ts : List String) : List (String × Value) :=
  (ps.zip ts).foldl (fun m pt => setVal m pt.1.key (.str pt.2)) vals

/-- A run of non-flag tokens is consumed by the remaining positional specs
strictly in order, one token per spec; a non-flag token with no remaining
positional spec stops the parse with `Unexpected positional argument`. -/
theorem parseLoop_plain_tokens (optDefs : List OptionDefWithKey) :
    ∀ (ts : List String) (remPos : List PosDefWithKey) (fuel : Nat)
      (vals : List (String × Value)),
      (∀ t ∈ ts, startsWithPfx "-" t = false) →
      (∀ p ∈ remPos, isStringType p.type = true) →
      ts.length ≤ fuel →
      (ts.length ≤ remPos.length →
        parseLoop optDefs fuel remPos vals ts = .ok (assignPos vals remPos ts))
      ∧ (remPos.length < ts.length →
        parseLoop optDefs fuel remPos vals ts =
          .error ("Unexpected positional argument: " ++ ts.getD remPos.length "")) := by
  intro ts
  induction ts with
  | nil =>
    intro remPos fuel vals _ _ _
    constructor
    · intro _
      rw [show assignPos vals remPos [] = vals from by simp [assignPos]]
      cases fuel <;> rfl
    · intro h
      exact absurd h (Nat.not_lt_zero _)
  | cons t ts ih =>
    intro remPos fuel vals hts hps hfuel
    cases fuel with
    | zero => simp at hfuel
    | succ f =>
      have ht : startsWithPfx "-" t = false := hts t (List.mem_cons_self ..)
      cases remPos with
      | nil =>
        constructor
        · intro hle
          simp at hle
        · intro _
          rw [parseLoop_cons, scanStep_pos optDefs [] vals t ts ht]
          rfl
      | cons p ps =>
        have hstr : isStringType p.type = true := hps p (List.mem_cons_self ..)
        have hpv : parseArgValue p.type t = .ok (.str t) := by
          cases hp : p.type with
          | string => rfl
          | number => rw [hp] at hstr; simp [isStringType] at hstr
          | boolean => rw [hp] at hstr; simp [isStringType] at hstr
          | custom q => rw [hp] at hstr; simp [isStringType] at hstr
        have hred : parseLoop optDefs (f + 1) (p :: ps) vals (t :: ts) =
            parseLoop optDefs f ps (setVal vals p.key (.str t)) ts := by
          rw [parseLoop_cons, scanStep_pos optDefs (p :: ps) vals t ts ht]
          dsimp only
          rw [hpv]
          rfl
        rw [hred]
        have hfuel' : ts.length ≤ f := by
          simpa using Nat.le_of_succ_le_succ hfuel
        have IH := ih ps f (setVal vals p.key (.str t))
          (fun x hx => hts x (List.mem_cons_of_mem _ hx))
          (fun q hq => hps q (List.mem_cons_of_mem _ hq)) hfuel'
        constructor
        · intro hle
          rw [IH.1 (by simpa using hle)]
          rfl
        · intro hlt
          rw [IH.2 (by simpa using hlt)]
          rfl

/-- Claim C6 (confirmed): from any scan state, non-flag tokens are consumed by
the remaining positional specs strictly in declaration order, one raw token
per spec (shown for string-typed positionals, where the stored value is the
raw token); a non-flag token arriving when no positional specs remain yields
`Error("Unexpected positional argument: <token>")`.  The concrete conjuncts
instantiate the claim's example, and the last conjunct shows that
`getPositionalArgDefs` preserves the schema's declaration order of keys. -/
theorem C6_positionals_in_order :
    (∀ (optDefs : List OptionDefWithKey) (ts : List String)
      (remPos : List PosDefWithKey) (fuel : Nat) (vals : List (String × Value)),
      (∀ t ∈ ts, startsWithPfx "-" t = false) →
      (∀ p ∈ remPos, isStringType p.type = true) →
      ts.length ≤ fuel →
      (ts.length ≤ remPos.length →
        parseLoop optDefs fuel remPos vals ts = .ok (assignPos vals remPos ts))
      ∧ (remPos.length < ts.length →
        parseLoop optDefs fuel remPos vals ts =
          .error ("Unexpected positional argument: " ++ ts.getD remPos.length "")))
    ∧ parseArgs [("first", { positional := true, type := .string }),
        ("second", { positional := true, type := .string })] ["x", "y"] =
        .ok [("first", .str "x"), ("second", .str "y")]
    ∧ parseArgs [("first", { positional := true, type := .string }),
        ("second", { positional := true, type := .string })] ["x", "y", "z"] =
        .error "Unexpected positional argument: z"
    ∧ (∀ defs : Schema, (getPositionalArgDefs defs).map PosDefWithKey.key =
        (defs.filter (fun kd => kd.2.positional)).map Prod.fst) := by
  refine ⟨fun optDefs ts remPos fuel vals hts hps hf =>
    parseLoop_plain_tokens optDefs ts remPos fuel vals hts hps hf, rfl, rfl, ?_⟩
  intro defs
  unfold getPositionalArgDefs
  rw [List.map_map]
  rfl

/-- Claim C6 witness: two string positionals and tokens `["x", "y"]` at the
scan level, via the general theorem. -/
theorem C6_witness :
    parseLoop [] 2
      [{ key := "first", type := .string }, { key := "second", type := .string }]
      [] ["x", "y"] =
      .ok (assignPos []
        [{ key := "first", type := .string }, { key := "second", type := .string }]
        ["x", "y"]) :=
  (C6_positionals_in_order.1 [] ["x", "y"]
    [{ key := "first", type := .string }, { key := "second", type := .string }]
    2 [] (by decide) (by intro p hp; fin_cases hp <;> rfl) (by decide)).1
    (by decide)

/-! ## Claims C8, C9, C10 -/

/-- Claim C8 (confirmed): the `parse` entry point drops the first two tokens
(interpreter and script path) whatever they are, and parses the remainder;
in particular a zero-argument schema applied to exactly those two tokens
yields `Ok({})`. -/
theorem C8_parse_skips_two_tokens :
    (∀ (defs : Schema) (a b : String) (rest : List String),
      parseTop defs (a :: b :: rest) = parseArgs defs rest)
    ∧ (∀ a b : String, parseTop [] [a, b] = .ok []) :=
  ⟨fun _ _ _ _ => rfl, fun _ _ => rfl⟩

/-- Claim C9 (amended, proved): a `"-"` token reached by the scanner is a
zero-character short option group and is consumed with no effect — no error,
no value set, no following token consumed — so parsing `"-" :: rest` from any
scan state equals parsing `rest`, and `parseArgs` on a token list headed by
`"-"` equals `parseArgs` on its tail.  (The claim's stronger removal
equivalence at arbitrary positions fails: see the counterexample.) -/
theorem C9_lone_dash_is_noop :
    (∀ (optDefs : List OptionDefWithKey) (fuel : Nat)
      (remPos : List PosDefWithKey) (vals : List (String × Value))
      (rest : List String),
      parseLoop optDefs (fuel + 1) remPos vals ("-" :: rest) =
        parseLoop optDefs fuel remPos vals rest)
    ∧ (∀ (defs : Schema) (ts : List String),
      parseArgs defs ("-" :: ts) = parseArgs defs ts) := by
  refine ⟨fun optDefs fuel remPos vals rest => parseLoop_dash .., ?_⟩
  intro defs ts
  unfold parseArgs
  rw [List.length_cons, parseLoop_dash]

/-- Claim C9 counterexample: removing a `"-"` token can change the result.
In `["--name", "-", "v"]` the `"-"` sits in the value-lookahead slot of
`--name` and (starting with `-`) forces `Missing value`, while with the token
removed the parse succeeds. -/
theorem C9_counterexample :
    parseArgs [("name", { type := .string })] ["--name", "-", "v"] =
      .error "Missing value for option --name"
    ∧ parseArgs [("name", { type := .string })] ["--name", "v"] =
      .ok [("name", .str "v")]
    ∧ parseArgs [("name", { type := .string })] ["--name", "-", "v"] ≠
      parseArgs [("name", { type := .string })] ["--name", "v"] := by
  refine ⟨rfl, rfl, ?_⟩
  decide

/-- Claim C10 (confirmed): `"--"` is not an end-of-options separator; it is
handled as a long option whose candidate name is empty, which matches no spec
(the lookup requires a truthy long), so the scan stops immediately with
`Error("Unrecognized option --")` — for every schema, even without the
claim's proviso that no resolved long name is empty. -/
theorem C10_dashdash_unrecognized :
    (∀ (optDefs : List OptionDefWithKey) (fuel : Nat)
      (remPos : List PosDefWithKey) (vals : List (String × Value))
      (rest : List String),
      parseLoop optDefs (fuel + 1) remPos vals ("--" :: rest) =
        .error "Unrecognized option --")
    ∧ (∀ (defs : Schema) (ts : List String),
      parseArgs defs ("--" :: ts) = .error "Unrecognized option --") := by
  refine ⟨fun optDefs fuel remPos vals rest => parseLoop_dashdash .., ?_⟩
  intro defs ts
  unfold parseArgs
  rw [List.length_cons, parseLoop_dashdash]

/-! ## Usage-table rendering: display width and styling-sequence stripping -/

def escChar : Char := '\x1b'

/-- The character class `[0-9;]` of the styling-sequence pattern. -/
def isParamChar (c : Char) : Bool := c.isDigit || c == ';'

/-- Scanner state for one global pass of
`s.replace(/\x1b\[[0-9;]*m/g, "")`. -/
inductive StripMode where
  | plain
  | sawEsc
  | inParams

/-- One global pass of the styling-sequence removal, as a left-to-right
scanner; `pend` holds the pending (not yet rejected) candidate chars.  As with
the regex replace, a rejected pending run is emitted verbatim and scanning
resumes at the character that rejected it — a completed match can never start
*inside* a rejected run, since `ESC` occurs in it only at its head — and a
completed match is dropped without rescanning the output. -/
def stripGo : StripMode → List Char → List Char → List Char
  | _, pend, [] => pend
  | .plain, _, c :: rest =>
    if c = escChar then stripGo .sawEsc [escChar] rest
    else c :: stripGo .plain [] rest
  | .sawEsc, pend, c :: rest =>
    if c = '[' then stripGo .inParams (pend ++ [c]) rest
    else if c = escChar then pend ++ stripGo .sawEsc [escChar] rest
    else pend ++ (c :: stripGo .plain [] rest)
  | .inParams, pend, c :: rest =>
    if c = 'm' then stripGo .plain [] rest
    else if isParamChar c then stripGo .inParams (pend ++ [c]) rest
    else if c = escChar then pend ++ stripGo .sawEsc [escChar] rest
    else pend ++ (c :: stripGo .plain [] rest)

/-- `s.replace(ANSI, "")` with `ANSI = /\x1b\[[0-9;]*m/g`. -/
def stripAnsi (s : String) : String := ⟨stripGo .plain [] s.data⟩

/-- `visibleLen`: the length after removing styling sequences. -/
def visibleLen (s : String) : Nat := (stripAnsi s).length

def spacesStr (n : Nat) : String := ⟨List.replicate n ' '⟩

/-- `padStartVisible`: left-pad with spaces up to the visible width. -/
def padStartVisible (s : String) (minWidth : Nat) : String :=
  if minWidth ≤ visibleLen s then s else spacesStr (minWidth - visibleLen s) ++ s

/-- `padEndVisible`: right-pad with spaces up to the visible width. -/
def padEndVisible (s : String) (minWidth : Nat) : String :=
  if minWidth ≤ visibleLen s then s else s ++ spacesStr (minWidth - visibleLen s)

inductive Justification where
  | left
  | right
deriving DecidableEq, Repr

/-- Merge one row's visible lengths into the running column maxima
(`maxColumnLengths[i] = Math.max(maxColumnLengths[i] || 0, visibleLen cell)`,
with absent entries treated as `0`). -/
def mergeRow : List Nat → List Nat → List Nat
  | acc, [] => acc
  | [], n :: ns => n :: mergeRow [] ns
  | a :: acc', n :: ns => max a n :: mergeRow acc' ns

/-- The per-column maximum visible widths over all rows. -/
def colWidths (rows : List (List String)) : List Nat :=
  rows.foldl (fun acc row => mergeRow acc (row.map visibleLen)) []

/-- Pad the cell at column `i` (`justifications[i] || "left"`,
`maxColumnLengths[i] || 0`). -/
def padCell (justs : List Justification) (widths : List Nat) (i : Nat)
    (cell : String) : String :=
  match justs.getD i .left with
  | .left => padEndVisible cell (widths.getD i 0)
  | .right => padStartVisible cell (widths.getD i 0)

/-- `row.map((cellText, i) => …)`: pad each cell of a row at its column
index. -/
def renderRowFrom (justs : List Justification) (widths : List Nat) :
    Nat → List String → List String
  | _, [] => []
  | i, c :: cs =>
    padCell justs widths i c :: renderRowFrom justs widths (i + 1) cs

/-- The padded cells of `outputTable`, before joining. -/
def renderTableCells (rows : List (List String))
    (justs : List Justification) : List (List String) :=
  rows.map (renderRowFrom justs (colWidths rows) 0)

/-- `outputTable`: pad cells to the column widths, join the cells of each row,
prefix the indentation, join rows with newlines. -/
def outputTable (rows : List (List String)) (justs : List Justification)
    (ind : String) : String :=
  String.intercalate "\n"
    ((renderTableCells rows justs).map (fun cells => ind ++ String.join cells))

/-- Does `[0-9;]* m` start here (the tail of a candidate match after
`ESC [`)? -/
def hasParamsThenM : List Char → Bool
  | [] => false
  | c :: rest =>
    if c = 'm' then true
    else if isParamChar c then hasParamsThenM rest
    else false

/-- Does a complete styling sequence start at the head? -/
def isAnsiStart : List Char → Bool
  | c1 :: c2 :: rest => c1 = escChar && c2 = '[' && hasParamsThenM rest
  | _ => false

/-- No complete styling sequence starts at any position. -/
def noMatch : List Char → Bool
  | [] => true
  | c :: rest => !isAnsiStart (c :: rest) && noMatch rest

theorem stripGo_nil (mode : StripMode) (pend : List Char) :
    stripGo mode pend [] = pend := by
  cases mode <;> rfl

theorem stripGo_plain (c : Char) (rest : List Char) :
    stripGo .plain [] (c :: rest) =
      (if c = escChar then stripGo .sawEsc [escChar] rest
       else c :: stripGo .plain [] rest) := rfl

theorem stripGo_sawEsc (pend : List Char) (c : Char) (rest : List Char) :
    stripGo .sawEsc pend (c :: rest) =
      (if c = '[' then stripGo .inParams (pend ++ [c]) rest
       else if c = escChar then pend ++ stripGo .sawEsc [escChar] rest
       else pend ++ (c :: stripGo .plain [] rest)) := rfl

theorem stripGo_inParams (pend : List Char) (c : Char) (rest : List Char) :
    stripGo .inParams pend (c :: rest) =
      (if c = 'm' then stripGo .plain [] rest
       else if isParamChar c then stripGo .inParams (pend ++ [c]) rest
       else if c = escChar then pend ++ stripGo .sawEsc [escChar] rest
       else pend ++ (c :: stripGo .plain [] rest)) := rfl

/-- On input containing no complete styling sequence, the stripping pass is
the identity (stated for the three reachable scanner configurations). -/
theorem stripGo_of_noMatch (xs : List Char) :
    (noMatch xs = true → stripGo .plain [] xs = xs)
    ∧ (noMatch xs = true → isAnsiStart (escChar :: xs) = false →
        stripGo .sawEsc [escChar] xs = escChar :: xs)
    ∧ (∀ pend, noMatch xs = true → hasParamsThenM xs = false →
        stripGo .inParams pend xs = pend ++ xs) := by
  induction xs with
  | nil =>
    exact ⟨fun _ => rfl, fun _ _ => rfl, fun pend _ _ => by
      rw [stripGo_nil, List.append_nil]⟩
  | cons c rest ih =>
    obtain ⟨ih0, ih1, ih2⟩ := ih
    have hsplit : noMatch (c :: rest) = true →
        isAnsiStart (c :: rest) = false ∧ noMatch rest = true := by
      intro h
      rw [show noMatch (c :: rest) = (!isAnsiStart (c :: rest) && noMatch rest)
        from rfl, Bool.and_eq_true, Bool.not_eq_true'] at h
      exact h
    refine ⟨?_, ?_, ?_⟩
    · intro h
      obtain ⟨hA, hR⟩ := hsplit h
      rw [stripGo_plain]
      by_cases hc : c = escChar
      · subst hc
        rw [if_pos rfl, ih1 hR hA]
      · rw [if_neg hc, ih0 hR]
    · intro h hAS
      obtain ⟨hA, hR⟩ := hsplit h
      rw [stripGo_sawEsc]
      by_cases hbr : c = '['
      · subst hbr
        have hP : hasParamsThenM rest = false := by
          rw [show isAnsiStart (escChar :: '[' :: rest) =
            (escChar = escChar && '[' = '[' && hasParamsThenM rest) from rfl] at hAS
          simpa using hAS
        rw [if_pos rfl, ih2 ([escChar] ++ ['[']) hR hP]
        rfl
      · by_cases hesc : c = escChar
        · subst hesc
          rw [if_neg hbr, if_pos rfl, ih1 hR hA]
          rfl
        · rw [if_neg hbr, if_neg hesc, ih0 hR]
          rfl
    · intro pend h hP
      obtain ⟨hA, hR⟩ := hsplit h
      rw [stripGo_inParams]
      by_cases hm : c = 'm'
      · subst hm
        rw [show hasParamsThenM ('m' :: rest) = true from rfl] at hP
        exact absurd hP (by simp)
      · have hPrest : isParamChar c = true → hasParamsThenM rest = false := by
          intro hpc
          rw [show hasParamsThenM (c :: rest) =
            (if c = 'm' then true
             else if isParamChar c then hasParamsThenM rest else false) from rfl,
            if_neg hm, if_pos hpc] at hP
          exact hP
        by_cases hpc : isParamChar c = true
        · rw [if_neg hm, if_pos hpc, ih2 (pend ++ [c]) hR (hPrest hpc),
            List.append_assoc]
          rfl
        · by_cases hesc : c = escChar
          · subst hesc
            rw [if_neg hm, if_neg (by simp [hpc]), if_pos rfl, ih1 hR hA]
          · rw [if_neg hm, if_neg (by simp [hpc]), if_neg hesc, ih0 hR]

/-- Stripping is the identity on strings with no complete styling sequence. -/
theorem stripAnsi_of_noMatch (s : String) (h : noMatch s.data = true) :
    stripAnsi s = s := by
  unfold stripAnsi
  rw [(stripGo_of_noMatch s.data).1 h]

/-- If the stripped form has no residual sequence, its visible length is its
length, which is the original's visible length. -/
theorem visibleLen_stripAnsi (s : String)
    (h : noMatch (stripAnsi s).data = true) :
    visibleLen (stripAnsi s) = visibleLen s := by
  show (stripAnsi (stripAnsi s)).length = visibleLen s
  rw [stripAnsi_of_noMatch _ h]
  rfl

theorem stripGo_plain_spaces (k : Nat) :
    stripGo .plain [] (List.replicate k ' ') = List.replicate k ' ' := by
  induction k with
  | zero => rfl
  | succ n ih =>
    rw [List.replicate_succ, stripGo_plain, if_neg (by decide), ih]

/-- Trailing spaces pass through the stripping scan unchanged, from any
scanner configuration (in `plain` mode the pending buffer is empty). -/
theorem stripGo_append_spaces (k : Nat) (xs : List Char) :
    ∀ (mode : StripMode) (pend : List Char), (mode = .plain → pend = []) →
      stripGo mode pend (xs ++ List.replicate k ' ') =
        stripGo mode pend xs ++ List.replicate k ' ' := by
  induction xs with
  | nil =>
    intro mode pend hmp
    rw [List.nil_append, stripGo_nil]
    cases mode with
    | plain =>
      obtain rfl := hmp rfl
      rw [stripGo_plain_spaces, List.nil_append]
    | sawEsc =>
      cases k with
      | zero => rw [List.replicate_zero, stripGo_nil, List.append_nil]
      | succ n =>
        rw [List.replicate_succ, stripGo_sawEsc, if_neg (by decide),
          if_neg (by decide), stripGo_plain_spaces]
    | inParams =>
      cases k with
      | zero => rw [List.replicate_zero, stripGo_nil, List.append_nil]
      | succ n =>
        rw [List.replicate_succ, stripGo_inParams, if_neg (by decide),
          if_neg (by decide), if_neg (by decide), stripGo_plain_spaces]
  | cons c rest ih =>
    intro mode pend hmp
    rw [List.cons_append]
    cases mode with
    | plain =>
      obtain rfl := hmp rfl
      rw [stripGo_plain, stripGo_plain]
      by_cases hc : c = escChar
      · rw [if_pos hc, if_pos hc, ih .sawEsc [escChar] (fun h => nomatch h)]
      · rw [if_neg hc, if_neg hc, ih .plain [] (fun _ => rfl), List.cons_append]
    | sawEsc =>
      rw [stripGo_sawEsc, stripGo_sawEsc]
      by_cases hbr : c = '['
      · rw [if_pos hbr, if_pos hbr,
          ih .inParams (pend ++ [c]) (fun h => nomatch h)]
      · by_cases hesc : c = escChar
        · rw [if_neg hbr, if_neg hbr, if_pos hesc, if_pos hesc,
            ih .sawEsc [escChar] (fun h => nomatch h), List.append_assoc]
        · rw [if_neg hbr, if_neg hbr, if_neg hesc, if_neg hesc,
            ih .plain [] (fun _ => rfl), List.append_assoc, List.cons_append]
    | inParams =>
      rw [stripGo_inParams, stripGo_inParams]
      by_cases hm : c = 'm'
      · rw [if_pos hm, if_pos hm, ih .plain [] (fun _ => rfl)]
      · by_cases hpc : isParamChar c = true
        · rw [if_neg hm, if_neg hm, if_pos hpc, if_pos hpc,
            ih .inParams (pend ++ [c]) (fun h => nomatch h)]
        · by_cases hesc : c = escChar
          · rw [if_neg hm, if_neg hm, if_neg hpc, if_neg hpc,
              if_pos hesc, if_pos hesc,
              ih .sawEsc [escChar] (fun h => nomatch h), List.append_assoc]
          · rw [if_neg hm, if_neg hm, if_neg hpc, if_neg hpc,
              if_neg hesc, if_neg hesc,
              ih .plain [] (fun _ => rfl), List.append_assoc, List.cons_append]

theorem stripGo_prepend_spaces (k : Nat) (xs : List Char) :
    stripGo .plain [] (List.replicate k ' ' ++ xs) =
      List.replicate k ' ' ++ stripGo .plain [] xs := by
  induction k with
  | zero => rfl
  | succ n ih =>
    rw [List.replicate_succ, List.cons_append, stripGo_plain,
      if_neg (by decide), ih]
    rfl

theorem stripAnsi_append_spaces (s : String) (k : Nat) :
    stripAnsi (s ++ spacesStr k) = stripAnsi s ++ spacesStr k := by
  unfold stripAnsi
  rw [show (s ++ spacesStr k).data = s.data ++ List.replicate k ' ' from
    String.data_append .., stripGo_append_spaces k s.data .plain [] (fun _ => rfl)]
  rfl

theorem stripAnsi_prepend_spaces (k : Nat) (s : String) :
    stripAnsi (spacesStr k ++ s) = spacesStr k ++ stripAnsi s := by
  unfold stripAnsi
  rw [show (spacesStr k ++ s).data = List.replicate k ' ' ++ s.data from
    String.data_append .., stripGo_prepend_spaces]
  rfl

/-- Stripping commutes with right-padding, for cells whose stripped form has
no residual sequence. -/
theorem stripAnsi_padEnd (s : String) (w : Nat)
    (hnm : noMatch (stripAnsi s).data = true) :
    stripAnsi (padEndVisible s w) = padEndVisible (stripAnsi s) w := by
  unfold padEndVisible
  rw [visibleLen_stripAnsi s hnm]
  by_cases hw : w ≤ visibleLen s
  · rw [if_pos hw, if_pos hw]
  · rw [if_neg hw, if_neg hw, stripAnsi_append_spaces]

/-- Stripping commutes with left-padding, for cells whose stripped form has
no residual sequence. -/
theorem stripAnsi_padStart (s : String) (w : Nat)
    (hnm : noMatch (stripAnsi s).data = true) :
    stripAnsi (padStartVisible s w) = padStartVisible (stripAnsi s) w := by
  unfold padStartVisible
  rw [visibleLen_stripAnsi s hnm]
  by_cases hw : w ≤ visibleLen s
  · rw [if_pos hw, if_pos hw]
  · rw [if_neg hw, if_neg hw, stripAnsi_prepend_spaces]

/-- Right-padding emits the cell verbatim (styling sequences included)
followed by the pad spaces. -/
theorem padEndVisible_emits (s : String) (w : Nat) :
    padEndVisible s w = s ++ spacesStr (w - visibleLen s) := by
  unfold padEndVisible
  by_cases hw : w ≤ visibleLen s
  · rw [if_pos hw, Nat.sub_eq_zero_of_le hw]
    exact (String.append_empty s).symm
  · rw [if_neg hw]

/-- Left-padding emits the pad spaces followed by the cell verbatim. -/
theorem padStartVisible_emits (s : String) (w : Nat) :
    padStartVisible s w = spacesStr (w - visibleLen s) ++ s := by
  unfold padStartVisible
  by_cases hw : w ≤ visibleLen s
  · rw [if_pos hw, Nat.sub_eq_zero_of_le hw]
    exact (String.empty_append s).symm
  · rw [if_neg hw]

/-- Column widths computed on the stripped cells equal those computed on the
original cells, when no cell's stripped form has a residual sequence. -/
theorem colWidths_strip (rows : List (List String))
    (h : ∀ row ∈ rows, ∀ cell ∈ row, noMatch (stripAnsi cell).data = true) :
    colWidths (rows.map (List.map stripAnsi)) = colWidths rows := by
  unfold colWidths
  suffices haux : ∀ (rs : List (List String)) (acc : List Nat),
      (∀ row ∈ rs, ∀ cell ∈ row, noMatch (stripAnsi cell).data = true) →
      List.foldl (fun acc row => mergeRow acc (row.map visibleLen)) acc
        (rs.map (List.map stripAnsi)) =
      List.foldl (fun acc row => mergeRow acc (row.map visibleLen)) acc rs by
    exact haux rows [] h
  intro rs
  induction rs with
  | nil => intro acc _; rfl
  | cons r rt ih =>
    intro acc hh
    rw [List.map_cons, List.foldl_cons, List.foldl_cons]
    have hr : (r.map stripAnsi).map visibleLen = r.map visibleLen := by
      rw [List.map_map]
      refine List.map_congr_left ?_
      intro cell hc
      exact visibleLen_stripAnsi cell (hh r (.head _) cell hc)
    rw [hr]
    exact ih _ (fun row hrow cell hcell => hh row (.tail _ hrow) cell hcell)

theorem renderRowFrom_strip (justs : List Justification) (widths : List Nat) :
    ∀ (row : List String) (i : Nat),
      (∀ cell ∈ row, noMatch (stripAnsi cell).data = true) →
      renderRowFrom justs widths i (row.map stripAnsi) =
        (renderRowFrom justs widths i row).map stripAnsi := by
  intro row
  induction row with
  | nil => intro _ _; rfl
  | cons c cs ih =>
    intro i hh
    rw [List.map_cons,
      show renderRowFrom justs widths i (stripAnsi c :: cs.map stripAnsi) =
        padCell justs widths i (stripAnsi c) ::
          renderRowFrom justs widths (i + 1) (cs.map stripAnsi) from rfl,
      show renderRowFrom justs widths i (c :: cs) =
        padCell justs widths i c ::
          renderRowFrom justs widths (i + 1) cs from rfl,
      List.map_cons]
    refine congrArg₂ List.cons ?_ (ih (i + 1) (fun x hx => hh x (.tail _ hx)))
    unfold padCell
    cases justs.getD i .left with
    | left => exact (stripAnsi_padEnd c _ (hh c (.head _))).symm
    | right => exact (stripAnsi_padStart c _ (hh c (.head _))).symm

/-- The padded table cells computed from stripped cells are exactly the
stripped forms of the padded cells computed from the original cells:
alignment is unchanged by stripping first. -/
theorem renderTableCells_strip (rows : List (List String))
    (justs : List Justification)
    (h : ∀ row ∈ rows, ∀ cell ∈ row, noMatch (stripAnsi cell).data = true) :
    renderTableCells (rows.map (List.map stripAnsi)) justs =
      (renderTableCells rows justs).map (List.map stripAnsi) := by
  unfold renderTableCells
  rw [colWidths_strip rows h, List.map_map, List.map_map]
  refine List.map_congr_left ?_
  intro row hrow
  exact renderRowFrom_strip justs (colWidths rows) row 0 (h row hrow)

/-! ## Claim C7 -/

/-- Claim C7 (amended, proved): for tables whose cells strip to text with no
residual styling sequence — which excludes only pathological cells where
removing one `ESC [ … m` run splices together a *new* one, since the
single-pass regex replace does not rescan (see the counterexample) — the
renderer's column widths equal those computed on the stripped cells, the
padded cells of the table rendered from stripped cells are exactly the
stripped padded cells of the original table (so alignment matches the
stripped-first computation), and padding always emits the original cell
verbatim, escape sequences included, with spaces added beside it. -/
theorem C7_alignment_ignores_ansi (rows : List (List String))
    (h : ∀ row ∈ rows, ∀ cell ∈ row, noMatch (stripAnsi cell).data = true) :
    colWidths (rows.map (List.map stripAnsi)) = colWidths rows
    ∧ (∀ justs, renderTableCells (rows.map (List.map stripAnsi)) justs =
        (renderTableCells rows justs).map (List.map stripAnsi))
    ∧ (∀ (s : String) (w : Nat),
        padEndVisible s w = s ++ spacesStr (w - visibleLen s))
    ∧ (∀ (s : String) (w : Nat),
        padStartVisible s w = spacesStr (w - visibleLen s) ++ s) :=
  ⟨colWidths_strip rows h,
    fun justs => renderTableCells_strip rows justs h,
    padEndVisible_emits, padStartVisible_emits⟩

/-- Claim C7 counterexample: the cell `"\x1b\x1b[0m[3m"` contains one complete
styling sequence; removing it splices the leading `ESC` onto `"[3m"`, so the
cell's display width is 4, while rendering the stripped cells measures width
0 — the two-row table aligns differently from its stripped-first version. -/
theorem C7_counterexample :
    colWidths ([["\x1b\x1b[0m[3m"], ["ab"]].map (List.map stripAnsi)) ≠
      colWidths [["\x1b\x1b[0m[3m"], ["ab"]] := by decide

/-- Claim C7 witness: a table with ordinary styled cells at a concrete
input. -/
theorem C7_witness :
    colWidths ([["\x1b[1mbold\x1b[0m", "x"], ["ab", "yy"]].map
        (List.map stripAnsi)) =
      colWidths [["\x1b[1mbold\x1b[0m", "x"], ["ab", "yy"]] :=
  (C7_alignment_ignores_ansi [["\x1b[1mbold\x1b[0m", "x"], ["ab", "yy"]]
    (by decide)).1

end TsArg
